import Mathlib

/-
Verification development for the weak-pool repository (src/src/WeakPool.ts and
src/unnamed/part_001, the file defaultPoolScalingAlgo.ts).

Shallow embedding conventions:
- Pooled objects and their weak handles are identified with natural-number ids.
  The external dependency getWeakRef (weak-ref-cache) returns one canonical,
  identity-stable handle per object, so an object and its handle are the same id.
- A JavaScript Set (insertion-ordered, deduplicated) is a Nodup list; Set.add
  appends at the end when absent (addSet), Set.delete is List.erase, and
  for-of iteration visits the list from the head (oldest insertion first).
- The strong pool is a JavaScript array used as a stack (push/pop at the end);
  it is modelled as a list whose HEAD is the top of the stack, i.e. the Lean
  list is the JS array reversed.
- The host memory manager is modelled by a dead set: an object may be marked
  dead (reclaimed) only while the pool holds no strong reference to it, and the
  FinalizationRegistry callback fires at most once per registered handle, at
  some later step, only for dead objects.  WeakRef.deref() returns the object
  exactly when it is not dead.
- JavaScript numbers holding counters are Nat; the source itself saturates the
  two GC counters at Number.MAX_SAFE_INTEGER.  The default scaling algorithm
  (which divides and compares against 0.1/0.2/0.5) is modelled over ℚ, exact
  rational arithmetic; every concrete value checked below is exactly
  representable in binary floating point as well.
-/

/-- Signature of a strong-pool scaling algorithm as used by the pool proper
(PoolScalingSignature in WeakPool.ts): numActiveObjects, curMaxStrongPoolSize,
numStrongPooledRefs, numWeakPooledRefs, numGC, returning the new capacity.
Per the contract in the spec the result is a non-negative integer capacity. -/
abbrev ScalingAlgo : Type := Nat → Nat → Nat → Nat → Nat → Nat

/-- Number.MAX_SAFE_INTEGER, the saturation bound used by the source for the
two GC counters. -/
def MAX_SAFE_INTEGER : Nat := 9007199254740991

/-- State of a WeakPool instance: the private fields of class WeakPool
(second, current revision of src/src/WeakPool.ts), together with the model
bookkeeping for the host runtime (pendingTasks for the setTimeout queue,
registered for FinalizationRegistry registrations, dead for reclaimed objects,
nextId for the factory's supply of fresh objects). -/
structure PoolState where
  strongPool : List Nat
  weakPool : List Nat
  activeObjects : List Nat
  maxStrongPoolSize : Nat
  numGC : Nat
  numActiveGC : Nat
  poolSizeUpdateScheduled : Bool
  pendingTasks : Nat
  registered : List Nat
  dead : List Nat
  nextId : Nat
deriving DecidableEq

/-- JavaScript Set.add on the list model: append at the end when absent. -/
def addSet (x : Nat) (l : List Nat) : List Nat := if x ∈ l then l else l ++ [x]

/-- Constructor of WeakPool: all collections empty, counters zero, and the
initial capacity seeded by calling the scaling algorithm with five zeros. -/
def initState (algo : ScalingAlgo) : PoolState :=
  { strongPool := []
    weakPool := []
    activeObjects := []
    maxStrongPoolSize := algo 0 0 0 0 0
    numGC := 0
    numActiveGC := 0
    poolSizeUpdateScheduled := false
    pendingTasks := 0
    registered := []
    dead := []
    nextId := 0 }

/-- Backfill loop inside acquire: iterate the weak pool in insertion order,
deleting every visited handle; stop at the first handle whose deref succeeds
(its target is not dead) and report it, together with the weak pool that
remains (the unvisited suffix). -/
def backfill (dead : List Nat) : List Nat → Option Nat × List Nat
  | [] => (none, [])
  | w :: rest => if w ∈ dead then backfill dead rest else (some w, rest)

/-- Method acquire of WeakPool.  Pop the strong pool; on success, run the
backfill loop (promoting at most one live weak handle onto the strong pool),
add the popped object's handle to the active set and return the object.  On
failure (empty strong pool), call the factory — modelled as allocating the
fresh id nextId — register the new object's handle with the finalization
registry, add it to the active set, and return it.  Result: (new state,
returned object). -/
def acquire (s : PoolState) : PoolState × Nat :=
  match s.strongPool with
  | obj :: rest =>
    match backfill s.dead s.weakPool with
    | (some w, weakRest) =>
      ({ s with strongPool := w :: rest
                weakPool := weakRest
                activeObjects := addSet obj s.activeObjects }, obj)
    | (none, weakRest) =>
      ({ s with strongPool := rest
                weakPool := weakRest
                activeObjects := addSet obj s.activeObjects }, obj)
  | [] =>
    ({ s with registered := addSet s.nextId s.registered
              activeObjects := addSet s.nextId s.activeObjects
              nextId := s.nextId + 1 }, s.nextId)

/-- Method release of WeakPool.  Obtain the object's handle; delete it from
the active set, registering it with the finalization registry when the delete
reports the handle was absent (a foreign release).  Invoke the reset callback
(externally supplied; no effect on pool state).  Push the object onto the
strong pool when its length is below the capacity, otherwise add its handle to
the weak pool.  Finally arm the debounced rescale: when the flag is clear, set
it and enqueue one setTimeout task. -/
def release (s : PoolState) (obj : Nat) : PoolState :=
  let s1 := if obj ∈ s.activeObjects then
    { s with activeObjects := s.activeObjects.erase obj }
  else
    { s with registered := addSet obj s.registered }
  let s2 := if s1.strongPool.length < s1.maxStrongPoolSize then
    { s1 with strongPool := obj :: s1.strongPool }
  else
    { s1 with weakPool := addSet obj s1.weakPool }
  if s2.poolSizeUpdateScheduled then s2
  else { s2 with poolSizeUpdateScheduled := true, pendingTasks := s2.pendingTasks + 1 }

/-- Shrink loop inside the private arrow function updatePoolSize: while the new
capacity is below the strong pool length, pop the strong pool and add the
popped object's handle to the weak pool.  (The source writes this as an if
guarding a do-while, which is the same loop.) -/
def shrink (maxSize : Nat) : List Nat → List Nat → List Nat × List Nat
  | [], weak => ([], weak)
  | x :: rest, weak =>
    if maxSize < rest.length + 1 then shrink maxSize rest (addSet x weak)
    else (x :: rest, weak)

/-- Promotion loop inside updatePoolSize: iterate the weak pool in insertion
order, deleting every visited handle; push each handle whose target is still
live onto the strong pool, stopping as soon as the push makes the strong pool
length equal the new capacity.  Dead handles are discarded. -/
def promote (maxSize : Nat) (dead : List Nat) : List Nat → List Nat → List Nat × List Nat
  | strong, [] => (strong, [])
  | strong, w :: rest =>
    if w ∈ dead then promote maxSize dead strong rest
    else if strong.length + 1 = maxSize then (w :: strong, rest)
    else promote maxSize dead (w :: strong) rest

/-- New capacity computed at the top of updatePoolSize: the scaling algorithm
applied to the pre-rescale statistics. -/
def rescaleTarget (algo : ScalingAlgo) (s : PoolState) : Nat :=
  algo s.activeObjects.length s.maxStrongPoolSize s.strongPool.length s.weakPool.length s.numGC

/-- The private arrow function updatePoolSize (the body of the scheduled
rescale task).  Compute the new capacity from current statistics and store it;
shrink the strong pool into the weak pool when the capacity dropped below the
strong pool length; otherwise, when the capacity exceeds the strong pool length
and the weak pool is non-empty, promote live weak handles; then zero numGC and
clear the debounce flag.  Running the task also consumes it from the host's
task queue (pendingTasks). -/
def updatePoolSize (algo : ScalingAlgo) (s : PoolState) : PoolState :=
  let newMax := rescaleTarget algo s
  let sw :=
    if newMax < s.strongPool.length then shrink newMax s.strongPool s.weakPool
    else if newMax > s.strongPool.length ∧ 0 < s.weakPool.length then
      promote newMax s.dead s.strongPool s.weakPool
    else (s.strongPool, s.weakPool)
  { s with maxStrongPoolSize := newMax
           strongPool := sw.1
           weakPool := sw.2
           numGC := 0
           poolSizeUpdateScheduled := false
           pendingTasks := s.pendingTasks - 1 }

/-- Body of the FinalizationRegistry callback (private field objFinalizer):
when the handle is still in the weak pool, delete it and increment numGC,
saturating at MAX_SAFE_INTEGER; otherwise, when it is still in the active set,
delete it and increment numActiveGC, saturating likewise; otherwise no-op. -/
def finalizeCallback (s : PoolState) (w : Nat) : PoolState :=
  if w ∈ s.weakPool then
    { s with weakPool := s.weakPool.erase w
             numGC := if s.numGC = MAX_SAFE_INTEGER then s.numGC else s.numGC + 1 }
  else if w ∈ s.activeObjects then
    { s with activeObjects := s.activeObjects.erase w
             numActiveGC := if s.numActiveGC = MAX_SAFE_INTEGER then s.numActiveGC
                            else s.numActiveGC + 1 }
  else s

/-- A finalization event for handle w: the registry fires its callback once and
consumes the registration. -/
def finalizeStep (s : PoolState) (w : Nat) : PoolState :=
  let s1 := finalizeCallback s w
  { s1 with registered := s1.registered.erase w }

/-- Method isActive: membership of the object's handle in the active set. -/
def isActive (s : PoolState) (obj : Nat) : Bool := decide (obj ∈ s.activeObjects)

/-- Method isStrongPooled: Array.includes on the strong pool. -/
def isStrongPooled (s : PoolState) (obj : Nat) : Bool := decide (obj ∈ s.strongPool)

/-- Method isWeakPooled: membership of the object's handle in the weak pool. -/
def isWeakPooled (s : PoolState) (obj : Nat) : Bool := decide (obj ∈ s.weakPool)

/-- One pool-state transition, under the single-threaded cooperative model of
the spec: a synchronous acquire; a synchronous release obeying the caller
discipline (the released object was acquired and not yet released, and the
caller's reference to it proves it is not reclaimed); the scheduled rescale
task running (it must actually be in the task queue); the host memory manager
reclaiming an object the pool holds no strong reference to; or the
finalization registry firing for a dead registered handle. -/
inductive Step (algo : ScalingAlgo) : PoolState → PoolState → Prop where
  | acq (s : PoolState) : Step algo s (acquire s).1
  | rel (s : PoolState) (obj : Nat) (ha : obj ∈ s.activeObjects) (hd : obj ∉ s.dead) :
      Step algo s (release s obj)
  | rescale (s : PoolState) (hp : 0 < s.pendingTasks) : Step algo s (updatePoolSize algo s)
  | die (s : PoolState) (o : Nat) (hreg : o ∈ s.registered) (hs : o ∉ s.strongPool)
      (hd : o ∉ s.dead) : Step algo s { s with dead := addSet o s.dead }
  | fin (s : PoolState) (w : Nat) (hd : w ∈ s.dead) (hreg : w ∈ s.registered) :
      Step algo s (finalizeStep s w)

/-- Pool states reachable from a freshly constructed pool by Step transitions. -/
inductive Reachable (algo : ScalingAlgo) : PoolState → Prop where
  | init : Reachable algo (initState algo)
  | step {s s' : PoolState} : Reachable algo s → Step algo s s' → Reachable algo s'

/-- DEFAULT_MAX_STRONG_POOL_SIZE from defaultPoolScalingAlgo.ts. -/
def DEFAULT_MAX_STRONG_POOL_SIZE : ℚ := 5

/-- POOL_SCALING_FACTOR from defaultPoolScalingAlgo.ts (the literal 0.2). -/
def POOL_SCALING_FACTOR : ℚ := 0.2

/-- The constant MIN_POOL_TO_ACTIVE_RATIO from defaultPoolScalingAlgo.ts (the
literal 0.1); renamed to camel case here. -/
def minPoolToActiveRatio : ℚ := 0.1

/-- The constant MAX_POOL_TO_ACTIVE_RATIO from defaultPoolScalingAlgo.ts (the
literal 0.5); renamed to camel case here. -/
def maxPoolToActiveRatio : ℚ := 0.5

/-- The function defaultPoolScalingAlgo from defaultPoolScalingAlgo.ts, with
JavaScript number arithmetic modelled as exact rational arithmetic (every
constant and every concrete case proved about it below is exact in binary
floating point too).  The local poolToActiveRatio is written out inline. -/
def defaultPoolScalingAlgo (numActiveObjects curMaxStrongPoolSize _numStrongPooledRefs
    _numWeakPooledRefs _numGC : ℚ) : ℚ :=
  if numActiveObjects = 0 then DEFAULT_MAX_STRONG_POOL_SIZE
  else if curMaxStrongPoolSize / numActiveObjects < minPoolToActiveRatio ∨
          curMaxStrongPoolSize / numActiveObjects > maxPoolToActiveRatio then
    max ((Int.ceil (numActiveObjects * POOL_SCALING_FACTOR) : ℤ) : ℚ)
      DEFAULT_MAX_STRONG_POOL_SIZE
  else max curMaxStrongPoolSize DEFAULT_MAX_STRONG_POOL_SIZE

/-- Method acquire with a factory that may throw, for the error-handling claim:
the factory call site is the only difference from acquire.  On a throw the
exception propagates and the error value carries the pool state at that
moment. -/
def acquireE (factoryThrows : Bool) (s : PoolState) : Except PoolState (PoolState × Nat) :=
  match s.strongPool with
  | obj :: rest =>
    match backfill s.dead s.weakPool with
    | (some w, weakRest) =>
      Except.ok ({ s with strongPool := w :: rest
                          weakPool := weakRest
                          activeObjects := addSet obj s.activeObjects }, obj)
    | (none, weakRest) =>
      Except.ok ({ s with strongPool := rest
                          weakPool := weakRest
                          activeObjects := addSet obj s.activeObjects }, obj)
  | [] =>
    if factoryThrows then Except.error s
    else
      Except.ok ({ s with registered := addSet s.nextId s.registered
                          activeObjects := addSet s.nextId s.activeObjects
                          nextId := s.nextId + 1 }, s.nextId)

/-- Pool state at the moment release invokes the reset callback: the active-set
delete (with finalization registration on a foreign release) has already
happened, nothing else has. -/
def preReset (s : PoolState) (obj : Nat) : PoolState :=
  if obj ∈ s.activeObjects then { s with activeObjects := s.activeObjects.erase obj }
  else { s with registered := addSet obj s.registered }

/-- Method release with a reset callback that may throw: the reset call site is
the only difference from release.  On a throw the exception propagates and the
error value carries the pool state at that moment. -/
def releaseE (resetThrows : Bool) (s : PoolState) (obj : Nat) : Except PoolState PoolState :=
  let s1 := preReset s obj
  if resetThrows then Except.error s1
  else
    let s2 := if s1.strongPool.length < s1.maxStrongPoolSize then
      { s1 with strongPool := obj :: s1.strongPool }
    else
      { s1 with weakPool := addSet obj s1.weakPool }
    Except.ok (if s2.poolSizeUpdateScheduled then s2
      else { s2 with poolSizeUpdateScheduled := true, pendingTasks := s2.pendingTasks + 1 })

/-- Getter numActiveObjects as a state transformer: returns the active-set size
and the (untouched) state, mirroring that its body is a single read. -/
def numActiveObjectsOp (s : PoolState) : Nat × PoolState := (s.activeObjects.length, s)

/-- Getter curMaxStrongPoolSize as a state transformer. -/
def curMaxStrongPoolSizeOp (s : PoolState) : Nat × PoolState := (s.maxStrongPoolSize, s)

/-- Getter numStrongPooledRefs as a state transformer. -/
def numStrongPooledRefsOp (s : PoolState) : Nat × PoolState := (s.strongPool.length, s)

/-- Getter numWeakPooledRefs as a state transformer. -/
def numWeakPooledRefsOp (s : PoolState) : Nat × PoolState := (s.weakPool.length, s)

/-- Getter numGC as a state transformer. -/
def numGCOp (s : PoolState) : Nat × PoolState := (s.numGC, s)

/-- Method isActive as a state transformer (its body is a single membership
test through the handle cache). -/
def isActiveOp (s : PoolState) (obj : Nat) : Bool × PoolState := (isActive s obj, s)

/-- Method isStrongPooled as a state transformer. -/
def isStrongPooledOp (s : PoolState) (obj : Nat) : Bool × PoolState := (isStrongPooled s obj, s)

/-- Method isWeakPooled as a state transformer. -/
def isWeakPooledOp (s : PoolState) (obj : Nat) : Bool × PoolState := (isWeakPooled s obj, s)

/-- The getter numActiveGC as written in the source: its body returns
this.numActiveGC, which re-invokes the getter itself (rather than reading the
private field this backslash-free name stands for).  The self-call is modelled
with explicit fuel; no amount of fuel produces a value. -/
def numActiveGCGetter (s : PoolState) : Nat → Option Nat
  | 0 => none
  | fuel + 1 => numActiveGCGetter s fuel

/-- An acquire-or-release interaction step, for the acquire/release-only
sequences of the statistics claim. -/
inductive ArOp where
  | acq : ArOp
  | rel : Nat → ArOp

/-- Run a sequence of acquire/release interactions against the pool. -/
def runAr : PoolState → List ArOp → PoolState
  | s, [] => s
  | s, ArOp.acq :: rest => runAr (acquire s).1 rest
  | s, ArOp.rel obj :: rest => runAr (release s obj) rest

/-- Run the release method once per element of the list, left to right. -/
def releaseMany : PoolState → List Nat → PoolState
  | s, [] => s
  | s, o :: rest => releaseMany (release s o) rest

/-- A scaling algorithm returning the constant capacity 0; a legal instance of
the pluggable scaling contract, used to exhibit concrete reachable states. -/
def constZeroAlgo : ScalingAlgo := fun _ _ _ _ _ => 0

theorem mem_addSet {y x : Nat} {l : List Nat} : y ∈ addSet x l ↔ y ∈ l ∨ y = x := by
  unfold addSet
  split
  · rename_i hx
    constructor
    · exact Or.inl
    · rintro (h1 | rfl)
      · exact h1
      · exact hx
  · simp [List.mem_append]

theorem nodup_addSet {x : Nat} {l : List Nat} (h : l.Nodup) : (addSet x l).Nodup := by
  unfold addSet
  split
  · exact h
  · rename_i hx
    refine List.Nodup.append h (List.nodup_singleton x) ?_
    intro a ha hb
    simp only [List.mem_singleton] at hb
    subst hb
    exact hx ha

theorem backfill_none {dead : List Nat} :
    ∀ {l rest : List Nat}, backfill dead l = (none, rest) → rest = [] := by
  intro l
  induction l with
  | nil =>
    intro rest h
    simpa [backfill] using congrArg Prod.snd h
  | cons a as ih =>
    intro rest h
    by_cases hd : a ∈ dead
    · exact ih (by simpa [backfill, hd] using h)
    · simp [backfill, hd] at h

theorem backfill_some {dead : List Nat} :
    ∀ {l rest : List Nat} {w : Nat}, backfill dead l = (some w, rest) →
      w ∉ dead ∧ (w :: rest).Sublist l := by
  intro l
  induction l with
  | nil =>
    intro rest w h
    simp [backfill] at h
  | cons a as ih =>
    intro rest w h
    by_cases hd : a ∈ dead
    · obtain ⟨h1, h2⟩ := ih (by simpa [backfill, hd] using h)
      exact ⟨h1, h2.cons a⟩
    · simp only [backfill, if_neg hd, Prod.mk.injEq, Option.some.injEq] at h
      obtain ⟨rfl, rfl⟩ := h
      exact ⟨hd, List.Sublist.refl _⟩

theorem shrink_fst_sublist (m : Nat) :
    ∀ (strong weak : List Nat), (shrink m strong weak).1.Sublist strong := by
  intro strong
  induction strong with
  | nil => intro weak; simp [shrink]
  | cons x rest ih =>
    intro weak
    unfold shrink
    split
    · exact (ih (addSet x weak)).cons x
    · exact List.Sublist.refl _

theorem shrink_fst_length (m : Nat) :
    ∀ (strong weak : List Nat), (shrink m strong weak).1.length = min m strong.length := by
  intro strong
  induction strong with
  | nil => intro weak; simp [shrink]
  | cons x rest ih =>
    intro weak
    unfold shrink
    split
    · rename_i hlt
      rw [ih (addSet x weak)]
      simp only [List.length_cons]
      omega
    · rename_i hge
      simp only [List.length_cons]
      omega

theorem shrink_mem_snd (m : Nat) :
    ∀ (strong weak : List Nat) (y : Nat),
      y ∈ (shrink m strong weak).2 → y ∈ weak ∨ y ∈ strong := by
  intro strong
  induction strong with
  | nil => intro weak y h; exact Or.inl (by simpa [shrink] using h)
  | cons x rest ih =>
    intro weak y h
    unfold shrink at h
    split at h
    · rcases ih (addSet x weak) y h with hw | hs
      · rcases mem_addSet.mp hw with hw' | rfl
        · exact Or.inl hw'
        · exact Or.inr (List.mem_cons_self _ _)
      · exact Or.inr (List.mem_cons_of_mem _ hs)
    · exact Or.inl h

theorem shrink_snd_supset (m : Nat) :
    ∀ (strong weak : List Nat) (y : Nat), y ∈ weak → y ∈ (shrink m strong weak).2 := by
  intro strong
  induction strong with
  | nil => intro weak y h; simpa [shrink] using h
  | cons x rest ih =>
    intro weak y h
    unfold shrink
    split
    · exact ih (addSet x weak) y (mem_addSet.mpr (Or.inl h))
    · exact h

theorem shrink_cover (m : Nat) :
    ∀ (strong weak : List Nat) (y : Nat), y ∈ strong →
      y ∈ (shrink m strong weak).1 ∨ y ∈ (shrink m strong weak).2 := by
  intro strong
  induction strong with
  | nil => intro weak y h; cases h
  | cons x rest ih =>
    intro weak y h
    unfold shrink
    split
    · rcases List.mem_cons.mp h with rfl | hr
      · exact Or.inr (shrink_snd_supset m rest (addSet y weak) y (mem_addSet.mpr (Or.inr rfl)))
      · exact ih (addSet x weak) y hr
    · exact Or.inl h

theorem shrink_snd_nodup (m : Nat) :
    ∀ (strong weak : List Nat), weak.Nodup → (shrink m strong weak).2.Nodup := by
  intro strong
  induction strong with
  | nil => intro weak h; simpa [shrink] using h
  | cons x rest ih =>
    intro weak h
    unfold shrink
    split
    · exact ih (addSet x weak) (nodup_addSet h)
    · exact h

theorem shrink_disj (m : Nat) :
    ∀ (strong weak : List Nat), strong.Nodup → (∀ y, y ∈ strong → y ∉ weak) →
      ∀ y, y ∈ (shrink m strong weak).1 → y ∉ (shrink m strong weak).2 := by
  intro strong
  induction strong with
  | nil => intro weak _ _ y h; simp [shrink] at h
  | cons x rest ih =>
    intro weak hnd hdisj y h1 h2
    by_cases hc : m < rest.length + 1
    · simp only [shrink, List.length_cons, if_pos hc] at h1 h2
      have hndr : rest.Nodup := (List.nodup_cons.mp hnd).2
      have hxr : x ∉ rest := (List.nodup_cons.mp hnd).1
      refine ih (addSet x weak) hndr ?_ y h1 h2
      intro z hz hmem
      rcases mem_addSet.mp hmem with hw | rfl
      · exact hdisj z (List.mem_cons_of_mem _ hz) hw
      · exact hxr hz
    · simp only [shrink, List.length_cons, if_neg hc] at h1 h2
      exact hdisj y h1 h2

theorem promote_fst_supset (m : Nat) (dead : List Nat) :
    ∀ (weak strong : List Nat) (y : Nat), y ∈ strong → y ∈ (promote m dead strong weak).1 := by
  intro weak
  induction weak with
  | nil => intro strong y h; simpa [promote] using h
  | cons w rest ih =>
    intro strong y h
    by_cases hd : w ∈ dead
    · simp only [promote, if_pos hd]
      exact ih strong y h
    · by_cases hlen : strong.length + 1 = m
      · simp only [promote, if_neg hd, if_pos hlen]
        exact List.mem_cons_of_mem _ h
      · simp only [promote, if_neg hd, if_neg hlen]
        exact ih (w :: strong) y (List.mem_cons_of_mem _ h)

theorem promote_fst_mem (m : Nat) (dead : List Nat) :
    ∀ (weak strong : List Nat) (y : Nat),
      y ∈ (promote m dead strong weak).1 → y ∈ strong ∨ (y ∈ weak ∧ y ∉ dead) := by
  intro weak
  induction weak with
  | nil => intro strong y h; exact Or.inl (by simpa [promote] using h)
  | cons w rest ih =>
    intro strong y h
    by_cases hd : w ∈ dead
    · simp only [promote, if_pos hd] at h
      rcases ih strong y h with hs | ⟨hw, hnd⟩
      · exact Or.inl hs
      · exact Or.inr ⟨List.mem_cons_of_mem _ hw, hnd⟩
    · by_cases hlen : strong.length + 1 = m
      · simp only [promote, if_neg hd, if_pos hlen] at h
        rcases List.mem_cons.mp h with rfl | hs
        · exact Or.inr ⟨List.mem_cons_self _ _, hd⟩
        · exact Or.inl hs
      · simp only [promote, if_neg hd, if_neg hlen] at h
        rcases ih (w :: strong) y h with hs | ⟨hw, hnd⟩
        · rcases List.mem_cons.mp hs with rfl | hs2
          · exact Or.inr ⟨List.mem_cons_self _ _, hd⟩
          · exact Or.inl hs2
        · exact Or.inr ⟨List.mem_cons_of_mem _ hw, hnd⟩

theorem promote_snd_sublist (m : Nat) (dead : List Nat) :
    ∀ (weak strong : List Nat), (promote m dead strong weak).2.Sublist weak := by
  intro weak
  induction weak with
  | nil => intro strong; simp [promote]
  | cons w rest ih =>
    intro strong
    by_cases hd : w ∈ dead
    · simp only [promote, if_pos hd]
      exact (ih strong).cons w
    · by_cases hlen : strong.length + 1 = m
      · simp only [promote, if_neg hd, if_pos hlen]
        exact (List.Sublist.refl rest).cons w
      · simp only [promote, if_neg hd, if_neg hlen]
        exact (ih (w :: strong)).cons w

theorem promote_weak_cases (m : Nat) (dead : List Nat) :
    ∀ (weak strong : List Nat) (y : Nat), y ∈ weak →
      y ∈ (promote m dead strong weak).2 ∨ y ∈ (promote m dead strong weak).1 ∨ y ∈ dead := by
  intro weak
  induction weak with
  | nil => intro strong y h; cases h
  | cons w rest ih =>
    intro strong y h
    by_cases hd : w ∈ dead
    · simp only [promote, if_pos hd]
      rcases List.mem_cons.mp h with rfl | hr
      · exact Or.inr (Or.inr hd)
      · exact ih strong y hr
    · by_cases hlen : strong.length + 1 = m
      · simp only [promote, if_neg hd, if_pos hlen]
        rcases List.mem_cons.mp h with rfl | hr
        · exact Or.inr (Or.inl (List.mem_cons_self _ _))
        · exact Or.inl hr
      · simp only [promote, if_neg hd, if_neg hlen]
        rcases List.mem_cons.mp h with rfl | hr
        · exact Or.inr (Or.inl (promote_fst_supset m dead rest (y :: strong) y
            (List.mem_cons_self _ _)))
        · exact ih (w :: strong) y hr

theorem promote_nodup_disj (m : Nat) (dead : List Nat) :
    ∀ (weak strong : List Nat), strong.Nodup → weak.Nodup →
      (∀ y, y ∈ weak → y ∉ strong) →
      (promote m dead strong weak).1.Nodup ∧
      (∀ y, y ∈ (promote m dead strong weak).1 → y ∉ (promote m dead strong weak).2) := by
  intro weak
  induction weak with
  | nil =>
    intro strong hs _ _
    refine ⟨by simpa [promote] using hs, ?_⟩
    intro y _ h2
    simp [promote] at h2
  | cons w rest ih =>
    intro strong hs hw hdisj
    have hwr : w ∉ rest := (List.nodup_cons.mp hw).1
    have hrest : rest.Nodup := (List.nodup_cons.mp hw).2
    by_cases hd : w ∈ dead
    · simp only [promote, if_pos hd]
      exact ih strong hs hrest (fun y hy => hdisj y (List.mem_cons_of_mem _ hy))
    · by_cases hlen : strong.length + 1 = m
      · simp only [promote, if_neg hd, if_pos hlen]
        refine ⟨List.nodup_cons.mpr ⟨hdisj w (List.mem_cons_self _ _), hs⟩, ?_⟩
        intro y hy hr
        rcases List.mem_cons.mp hy with rfl | hys
        · exact hwr hr
        · exact hdisj y (List.mem_cons_of_mem _ hr) hys
      · simp only [promote, if_neg hd, if_neg hlen]
        refine ih (w :: strong)
          (List.nodup_cons.mpr ⟨hdisj w (List.mem_cons_self _ _), hs⟩) hrest ?_
        intro y hy hmem
        rcases List.mem_cons.mp hmem with rfl | hys
        · exact hwr hy
        · exact hdisj y (List.mem_cons_of_mem _ hy) hys

theorem promote_fst_length (m : Nat) (dead : List Nat) :
    ∀ (weak strong : List Nat), strong.length < m →
      (promote m dead strong weak).1.length ≤ m := by
  intro weak
  induction weak with
  | nil => intro strong h; simp only [promote]; omega
  | cons w rest ih =>
    intro strong h
    by_cases hd : w ∈ dead
    · simp only [promote, if_pos hd]
      exact ih strong h
    · by_cases hlen : strong.length + 1 = m
      · simp only [promote, if_neg hd, if_pos hlen, List.length_cons]
        omega
      · simp only [promote, if_neg hd, if_neg hlen]
        exact ih (w :: strong) (by simp only [List.length_cons]; omega)

/-- Structural invariant of a pool at rest: the three object collections are
duplicate-free and pairwise disjoint, every strongly pooled object is alive
(the pool holds a strong reference to it), and every id the pool has ever seen
is below the factory's fresh-id counter. -/
structure PoolInv (s : PoolState) : Prop where
  nodupS : s.strongPool.Nodup
  nodupW : s.weakPool.Nodup
  nodupA : s.activeObjects.Nodup
  disjSW : ∀ o : Nat, o ∈ s.strongPool → o ∉ s.weakPool
  disjSA : ∀ o : Nat, o ∈ s.strongPool → o ∉ s.activeObjects
  disjWA : ∀ o : Nat, o ∈ s.weakPool → o ∉ s.activeObjects
  liveS : ∀ o : Nat, o ∈ s.strongPool → o ∉ s.dead
  fresh : ∀ o : Nat, o ∈ s.strongPool ∨ o ∈ s.weakPool ∨ o ∈ s.activeObjects ∨
      o ∈ s.registered ∨ o ∈ s.dead → o < s.nextId

theorem inv_init (algo : ScalingAlgo) : PoolInv (initState algo) := by
  refine ⟨List.nodup_nil, List.nodup_nil, List.nodup_nil, ?_, ?_, ?_, ?_, ?_⟩
  · intro o ho; cases ho
  · intro o ho; cases ho
  · intro o ho; cases ho
  · intro o ho; cases ho
  · intro o ho
    rcases ho with ho | ho | ho | ho | ho <;> cases ho

theorem inv_acquire {s : PoolState} (h : PoolInv s) : PoolInv (acquire s).1 := by
  obtain ⟨ndS, ndW, ndA, dSW, dSA, dWA, lS, fr⟩ := h
  cases hs : s.strongPool with
  | nil =>
    have e : (acquire s).1 =
        { s with registered := addSet s.nextId s.registered
                 activeObjects := addSet s.nextId s.activeObjects
                 nextId := s.nextId + 1 } := by
      simp only [acquire, hs]
    rw [e]
    refine ⟨?_, ndW, nodup_addSet ndA, ?_, ?_, ?_, ?_, ?_⟩
    · rw [hs]; exact List.nodup_nil
    · intro o ho; rw [hs] at ho; cases ho
    · intro o ho; rw [hs] at ho; cases ho
    · intro o ho hc
      rcases mem_addSet.mp hc with h1 | rfl
      · exact dWA _ ho h1
      · exact Nat.lt_irrefl _ (fr _ (Or.inr (Or.inl ho)))
    · intro o ho; rw [hs] at ho; cases ho
    · intro o ho
      rcases ho with ho | ho | ho | ho | ho
      · exact Nat.lt_succ_of_lt (fr _ (Or.inl ho))
      · exact Nat.lt_succ_of_lt (fr _ (Or.inr (Or.inl ho)))
      · rcases mem_addSet.mp ho with h1 | rfl
        · exact Nat.lt_succ_of_lt (fr _ (Or.inr (Or.inr (Or.inl h1))))
        · exact Nat.lt_succ_self _
      · rcases mem_addSet.mp ho with h1 | rfl
        · exact Nat.lt_succ_of_lt (fr _ (Or.inr (Or.inr (Or.inr (Or.inl h1)))))
        · exact Nat.lt_succ_self _
      · exact Nat.lt_succ_of_lt (fr _ (Or.inr (Or.inr (Or.inr (Or.inr ho)))))
  | cons obj rest =>
    have hobjS : obj ∈ s.strongPool := by rw [hs]; exact List.mem_cons_self _ _
    have hrestS : ∀ y : Nat, y ∈ rest → y ∈ s.strongPool := by
      intro y hy; rw [hs]; exact List.mem_cons_of_mem _ hy
    have hndc := ndS
    rw [hs, List.nodup_cons] at hndc
    obtain ⟨hobjrest, ndrest⟩ := hndc
    cases hb : backfill s.dead s.weakPool with
    | mk promoted weakRest =>
      cases promoted with
      | some w =>
        have e : (acquire s).1 =
            { s with strongPool := w :: rest
                     weakPool := weakRest
                     activeObjects := addSet obj s.activeObjects } := by
          simp only [acquire, hs, hb]
        rw [e]
        obtain ⟨hwd, hsub⟩ := backfill_some hb
        have hwin : w ∈ s.weakPool := hsub.subset (List.mem_cons_self _ _)
        have hndc2 : (w :: weakRest).Nodup := List.Nodup.sublist hsub ndW
        rw [List.nodup_cons] at hndc2
        obtain ⟨hwrest, ndwr⟩ := hndc2
        have hsubr : ∀ y : Nat, y ∈ weakRest → y ∈ s.weakPool := by
          intro y hy
          exact hsub.subset (List.mem_cons_of_mem _ hy)
        refine ⟨?_, ndwr, nodup_addSet ndA, ?_, ?_, ?_, ?_, ?_⟩
        · refine List.nodup_cons.mpr ⟨?_, ndrest⟩
          intro hc
          exact dSW w (hrestS w hc) hwin
        · intro o ho
          rcases List.mem_cons.mp ho with rfl | ho2
          · exact hwrest
          · intro hc; exact dSW _ (hrestS _ ho2) (hsubr _ hc)
        · intro o ho hc
          rcases mem_addSet.mp hc with h1 | rfl
          · rcases List.mem_cons.mp ho with rfl | ho2
            · exact dWA _ hwin h1
            · exact dSA _ (hrestS _ ho2) h1
          · rcases List.mem_cons.mp ho with rfl | ho2
            · exact dSW _ hobjS hwin
            · exact hobjrest ho2
        · intro o ho hc
          rcases mem_addSet.mp hc with h1 | rfl
          · exact dWA _ (hsubr _ ho) h1
          · exact dSW _ hobjS (hsubr _ ho)
        · intro o ho
          rcases List.mem_cons.mp ho with rfl | ho2
          · exact hwd
          · exact lS _ (hrestS _ ho2)
        · intro o ho
          rcases ho with ho | ho | ho | ho | ho
          · rcases List.mem_cons.mp ho with rfl | ho2
            · exact fr _ (Or.inr (Or.inl hwin))
            · exact fr _ (Or.inl (hrestS _ ho2))
          · exact fr _ (Or.inr (Or.inl (hsubr _ ho)))
          · rcases mem_addSet.mp ho with h1 | rfl
            · exact fr _ (Or.inr (Or.inr (Or.inl h1)))
            · exact fr _ (Or.inl hobjS)
          · exact fr _ (Or.inr (Or.inr (Or.inr (Or.inl ho))))
          · exact fr _ (Or.inr (Or.inr (Or.inr (Or.inr ho))))
      | none =>
        have e : (acquire s).1 =
            { s with strongPool := rest
                     weakPool := weakRest
                     activeObjects := addSet obj s.activeObjects } := by
          simp only [acquire, hs, hb]
        have hwr : weakRest = [] := backfill_none hb
        subst hwr
        rw [e]
        refine ⟨ndrest, List.nodup_nil, nodup_addSet ndA, ?_, ?_, ?_, ?_, ?_⟩
        · intro o _ hc; cases hc
        · intro o ho hc
          rcases mem_addSet.mp hc with h1 | rfl
          · exact dSA _ (hrestS _ ho) h1
          · exact hobjrest ho
        · intro o ho; cases ho
        · intro o ho; exact lS _ (hrestS _ ho)
        · intro o ho
          rcases ho with ho | ho | ho | ho | ho
          · exact fr _ (Or.inl (hrestS _ ho))
          · cases ho
          · rcases mem_addSet.mp ho with h1 | rfl
            · exact fr _ (Or.inr (Or.inr (Or.inl h1)))
            · exact fr _ (Or.inl hobjS)
          · exact fr _ (Or.inr (Or.inr (Or.inr (Or.inl ho))))
          · exact fr _ (Or.inr (Or.inr (Or.inr (Or.inr ho))))

theorem poolInv_transfer {s t : PoolState} (h : PoolInv s)
    (e1 : t.strongPool = s.strongPool) (e2 : t.weakPool = s.weakPool)
    (e3 : t.activeObjects = s.activeObjects) (e4 : t.registered = s.registered)
    (e5 : t.dead = s.dead) (e6 : t.nextId = s.nextId) : PoolInv t := by
  refine ⟨?_, ?_, ?_, ?_, ?_, ?_, ?_, ?_⟩
  · rw [e1]; exact h.nodupS
  · rw [e2]; exact h.nodupW
  · rw [e3]; exact h.nodupA
  · rw [e1, e2]; exact h.disjSW
  · rw [e1, e3]; exact h.disjSA
  · rw [e2, e3]; exact h.disjWA
  · rw [e1, e5]; exact h.liveS
  · rw [e1, e2, e3, e4, e5, e6]; exact h.fresh

theorem inv_release {s : PoolState} {obj : Nat} (h : PoolInv s) (ha : obj ∈ s.activeObjects)
    (hd : obj ∉ s.dead) : PoolInv (release s obj) := by
  obtain ⟨ndS, ndW, ndA, dSW, dSA, dWA, lS, fr⟩ := h
  have hnS : obj ∉ s.strongPool := fun hc => dSA _ hc ha
  have hnW : obj ∉ s.weakPool := fun hc => dWA _ hc ha
  have hsubA : ∀ y : Nat, y ∈ s.activeObjects.erase obj → y ∈ s.activeObjects :=
    fun y hy => (List.erase_sublist _ _).subset hy
  have hpush : PoolInv
      { s with activeObjects := s.activeObjects.erase obj
               strongPool := obj :: s.strongPool } := by
    refine ⟨?_, ndW, ndA.erase obj, ?_, ?_, ?_, ?_, ?_⟩
    · exact List.nodup_cons.mpr ⟨hnS, ndS⟩
    · intro o ho
      rcases List.mem_cons.mp ho with rfl | ho2
      · exact hnW
      · exact dSW _ ho2
    · intro o ho hc
      rcases List.mem_cons.mp ho with rfl | ho2
      · exact ndA.not_mem_erase hc
      · exact dSA _ ho2 (hsubA _ hc)
    · intro o ho hc
      exact dWA _ ho (hsubA _ hc)
    · intro o ho
      rcases List.mem_cons.mp ho with rfl | ho2
      · exact hd
      · exact lS _ ho2
    · intro o ho
      rcases ho with ho | ho | ho | ho | ho
      · rcases List.mem_cons.mp ho with rfl | ho2
        · exact fr _ (Or.inr (Or.inr (Or.inl ha)))
        · exact fr _ (Or.inl ho2)
      · exact fr _ (Or.inr (Or.inl ho))
      · exact fr _ (Or.inr (Or.inr (Or.inl (hsubA _ ho))))
      · exact fr _ (Or.inr (Or.inr (Or.inr (Or.inl ho))))
      · exact fr _ (Or.inr (Or.inr (Or.inr (Or.inr ho))))
  have hweak : PoolInv
      { s with activeObjects := s.activeObjects.erase obj
               weakPool := addSet obj s.weakPool } := by
    refine ⟨ndS, nodup_addSet ndW, ndA.erase obj, ?_, ?_, ?_, lS, ?_⟩
    · intro o ho hc
      rcases mem_addSet.mp hc with h1 | rfl
      · exact dSW _ ho h1
      · exact hnS ho
    · intro o ho hc
      exact dSA _ ho (hsubA _ hc)
    · intro o ho hc
      rcases mem_addSet.mp ho with h1 | rfl
      · exact dWA _ h1 (hsubA _ hc)
      · exact ndA.not_mem_erase hc
    · intro o ho
      rcases ho with ho | ho | ho | ho | ho
      · exact fr _ (Or.inl ho)
      · rcases mem_addSet.mp ho with h1 | rfl
        · exact fr _ (Or.inr (Or.inl h1))
        · exact fr _ (Or.inr (Or.inr (Or.inl ha)))
      · exact fr _ (Or.inr (Or.inr (Or.inl (hsubA _ ho))))
      · exact fr _ (Or.inr (Or.inr (Or.inr (Or.inl ho))))
      · exact fr _ (Or.inr (Or.inr (Or.inr (Or.inr ho))))
  simp only [release, if_pos ha]
  split
  · split
    · exact hpush
    · exact poolInv_transfer hpush rfl rfl rfl rfl rfl rfl
  · split
    · exact hweak
    · exact poolInv_transfer hweak rfl rfl rfl rfl rfl rfl

theorem inv_update (algo : ScalingAlgo) {s : PoolState} (h : PoolInv s) :
    PoolInv (updatePoolSize algo s) := by
  obtain ⟨ndS, ndW, ndA, dSW, dSA, dWA, lS, fr⟩ := h
  simp only [updatePoolSize]
  by_cases h1 : rescaleTarget algo s < s.strongPool.length
  · simp only [if_pos h1]
    have hsub := shrink_fst_sublist (rescaleTarget algo s) s.strongPool s.weakPool
    refine ⟨List.Nodup.sublist hsub ndS,
      shrink_snd_nodup _ _ _ ndW, ndA,
      shrink_disj _ _ _ ndS dSW, ?_, ?_, ?_, ?_⟩
    · intro o ho hc
      exact dSA _ (hsub.subset ho) hc
    · intro o ho hc
      rcases shrink_mem_snd _ _ _ _ ho with hw | hst
      · exact dWA _ hw hc
      · exact dSA _ hst hc
    · intro o ho
      exact lS _ (hsub.subset ho)
    · intro o ho
      rcases ho with ho | ho | ho | ho | ho
      · exact fr _ (Or.inl (hsub.subset ho))
      · rcases shrink_mem_snd _ _ _ _ ho with hw | hst
        · exact fr _ (Or.inr (Or.inl hw))
        · exact fr _ (Or.inl hst)
      · exact fr _ (Or.inr (Or.inr (Or.inl ho)))
      · exact fr _ (Or.inr (Or.inr (Or.inr (Or.inl ho))))
      · exact fr _ (Or.inr (Or.inr (Or.inr (Or.inr ho))))
  · simp only [if_neg h1]
    by_cases h2 : rescaleTarget algo s > s.strongPool.length ∧ 0 < s.weakPool.length
    · simp only [if_pos h2]
      have hdisjWS : ∀ y : Nat, y ∈ s.weakPool → y ∉ s.strongPool :=
        fun y hy hc => dSW _ hc hy
      obtain ⟨ndP, dPS⟩ :=
        promote_nodup_disj (rescaleTarget algo s) s.dead s.weakPool s.strongPool ndS ndW hdisjWS
      have hsub2 := promote_snd_sublist (rescaleTarget algo s) s.dead s.weakPool s.strongPool
      refine ⟨ndP, List.Nodup.sublist hsub2 ndW, ndA, dPS, ?_, ?_, ?_, ?_⟩
      · intro o ho hc
        rcases promote_fst_mem _ _ _ _ _ ho with hst | hw2
        · exact dSA _ hst hc
        · exact dWA _ hw2.1 hc
      · intro o ho hc
        exact dWA _ (hsub2.subset ho) hc
      · intro o ho
        rcases promote_fst_mem _ _ _ _ _ ho with hst | hw2
        · exact lS _ hst
        · exact hw2.2
      · intro o ho
        rcases ho with ho | ho | ho | ho | ho
        · rcases promote_fst_mem _ _ _ _ _ ho with hst | hw2
          · exact fr _ (Or.inl hst)
          · exact fr _ (Or.inr (Or.inl hw2.1))
        · exact fr _ (Or.inr (Or.inl (hsub2.subset ho)))
        · exact fr _ (Or.inr (Or.inr (Or.inl ho)))
        · exact fr _ (Or.inr (Or.inr (Or.inr (Or.inl ho))))
        · exact fr _ (Or.inr (Or.inr (Or.inr (Or.inr ho))))
    · simp only [if_neg h2]
      exact ⟨ndS, ndW, ndA, dSW, dSA, dWA, lS, fr⟩

theorem inv_die {s : PoolState} {o : Nat} (h : PoolInv s) (hreg : o ∈ s.registered)
    (hns : o ∉ s.strongPool) : PoolInv { s with dead := addSet o s.dead } := by
  obtain ⟨ndS, ndW, ndA, dSW, dSA, dWA, lS, fr⟩ := h
  refine ⟨ndS, ndW, ndA, dSW, dSA, dWA, ?_, ?_⟩
  · intro y hy hc
    rcases mem_addSet.mp hc with h1 | rfl
    · exact lS _ hy h1
    · exact hns hy
  · intro y hy
    rcases hy with hy | hy | hy | hy | hy
    · exact fr _ (Or.inl hy)
    · exact fr _ (Or.inr (Or.inl hy))
    · exact fr _ (Or.inr (Or.inr (Or.inl hy)))
    · exact fr _ (Or.inr (Or.inr (Or.inr (Or.inl hy))))
    · rcases mem_addSet.mp hy with h1 | rfl
      · exact fr _ (Or.inr (Or.inr (Or.inr (Or.inr h1))))
      · exact fr _ (Or.inr (Or.inr (Or.inr (Or.inl hreg))))

theorem inv_finalize {s : PoolState} (w : Nat) (h : PoolInv s) :
    PoolInv (finalizeStep s w) := by
  obtain ⟨ndS, ndW, ndA, dSW, dSA, dWA, lS, fr⟩ := h
  simp only [finalizeStep, finalizeCallback]
  by_cases h1 : w ∈ s.weakPool
  · simp only [if_pos h1]
    have hsubW : ∀ y : Nat, y ∈ s.weakPool.erase w → y ∈ s.weakPool :=
      fun y hy => (List.erase_sublist _ _).subset hy
    refine ⟨ndS, ndW.erase w, ndA, ?_, dSA, ?_, lS, ?_⟩
    · intro o ho hc
      exact dSW _ ho (hsubW _ hc)
    · intro o ho hc
      exact dWA _ (hsubW _ ho) hc
    · intro o ho
      rcases ho with ho | ho | ho | ho | ho
      · exact fr _ (Or.inl ho)
      · exact fr _ (Or.inr (Or.inl (hsubW _ ho)))
      · exact fr _ (Or.inr (Or.inr (Or.inl ho)))
      · exact fr _ (Or.inr (Or.inr (Or.inr (Or.inl ((List.erase_sublist _ _).subset ho)))))
      · exact fr _ (Or.inr (Or.inr (Or.inr (Or.inr ho))))
  · simp only [if_neg h1]
    by_cases h2 : w ∈ s.activeObjects
    · simp only [if_pos h2]
      have hsubA : ∀ y : Nat, y ∈ s.activeObjects.erase w → y ∈ s.activeObjects :=
        fun y hy => (List.erase_sublist _ _).subset hy
      refine ⟨ndS, ndW, ndA.erase w, dSW, ?_, ?_, lS, ?_⟩
      · intro o ho hc
        exact dSA _ ho (hsubA _ hc)
      · intro o ho hc
        exact dWA _ ho (hsubA _ hc)
      · intro o ho
        rcases ho with ho | ho | ho | ho | ho
        · exact fr _ (Or.inl ho)
        · exact fr _ (Or.inr (Or.inl ho))
        · exact fr _ (Or.inr (Or.inr (Or.inl (hsubA _ ho))))
        · exact fr _ (Or.inr (Or.inr (Or.inr (Or.inl ((List.erase_sublist _ _).subset ho)))))
        · exact fr _ (Or.inr (Or.inr (Or.inr (Or.inr ho))))
    · simp only [if_neg h2]
      refine ⟨ndS, ndW, ndA, dSW, dSA, dWA, lS, ?_⟩
      intro o ho
      rcases ho with ho | ho | ho | ho | ho
      · exact fr _ (Or.inl ho)
      · exact fr _ (Or.inr (Or.inl ho))
      · exact fr _ (Or.inr (Or.inr (Or.inl ho)))
      · exact fr _ (Or.inr (Or.inr (Or.inr (Or.inl ((List.erase_sublist _ _).subset ho)))))
      · exact fr _ (Or.inr (Or.inr (Or.inr (Or.inr ho))))

theorem reachable_inv {algo : ScalingAlgo} {s : PoolState} (h : Reachable algo s) :
    PoolInv s := by
  induction h with
  | init => exact inv_init algo
  | step hr hstep ih =>
    cases hstep with
    | acq => exact inv_acquire ih
    | rel obj ha hd => exact inv_release ih ha hd
    | rescale hp => exact inv_update algo ih
    | die o hreg hns hd => exact inv_die ih hreg hns
    | fin w hd hreg => exact inv_finalize w ih

theorem acquire_flag_pending (s : PoolState) :
    (acquire s).1.poolSizeUpdateScheduled = s.poolSizeUpdateScheduled ∧
    (acquire s).1.pendingTasks = s.pendingTasks := by
  cases hs : s.strongPool with
  | nil => simp [acquire, hs]
  | cons obj rest =>
    cases hb : backfill s.dead s.weakPool with
    | mk promoted weakRest => cases promoted <;> simp [acquire, hs, hb]

theorem acquire_counters (s : PoolState) :
    (acquire s).1.numGC = s.numGC ∧ (acquire s).1.numActiveGC = s.numActiveGC := by
  cases hs : s.strongPool with
  | nil => simp [acquire, hs]
  | cons obj rest =>
    cases hb : backfill s.dead s.weakPool with
    | mk promoted weakRest => cases promoted <;> simp [acquire, hs, hb]

theorem release_flag (s : PoolState) (obj : Nat) :
    (release s obj).poolSizeUpdateScheduled = true ∧
    (release s obj).pendingTasks =
      (if s.poolSizeUpdateScheduled then s.pendingTasks else s.pendingTasks + 1) := by
  simp only [release]
  split <;> split <;> split <;> simp_all

theorem release_counters (s : PoolState) (obj : Nat) :
    (release s obj).numGC = s.numGC ∧ (release s obj).numActiveGC = s.numActiveGC := by
  simp only [release]
  split <;> split <;> split <;> simp_all

theorem update_flag_pending (algo : ScalingAlgo) (s : PoolState) :
    (updatePoolSize algo s).poolSizeUpdateScheduled = false ∧
    (updatePoolSize algo s).pendingTasks = s.pendingTasks - 1 :=
  ⟨rfl, rfl⟩

theorem finalize_flag_pending (s : PoolState) (w : Nat) :
    (finalizeStep s w).poolSizeUpdateScheduled = s.poolSizeUpdateScheduled ∧
    (finalizeStep s w).pendingTasks = s.pendingTasks := by
  simp only [finalizeStep, finalizeCallback]
  split
  · exact ⟨rfl, rfl⟩
  · split
    · exact ⟨rfl, rfl⟩
    · exact ⟨rfl, rfl⟩

theorem reachable_pending {algo : ScalingAlgo} {s : PoolState} (h : Reachable algo s) :
    s.pendingTasks = (bif s.poolSizeUpdateScheduled then 1 else 0) := by
  induction h with
  | init => rfl
  | @step s1 s2 hr hstep ih =>
    cases hstep with
    | acq =>
      obtain ⟨e1, e2⟩ := acquire_flag_pending s1
      rw [e1, e2]
      exact ih
    | rel obj ha hd =>
      obtain ⟨e1, e2⟩ := release_flag s1 obj
      rw [e1, e2]
      cases hf : s1.poolSizeUpdateScheduled <;> rw [hf] at ih <;> simp_all
    | rescale hp =>
      obtain ⟨e1, e2⟩ := update_flag_pending algo s1
      rw [e1, e2]
      cases hf : s1.poolSizeUpdateScheduled <;> rw [hf] at ih <;> simp_all
    | die o hreg hns hd => exact ih
    | fin w hd hreg =>
      obtain ⟨e1, e2⟩ := finalize_flag_pending s1 w
      rw [e1, e2]
      exact ih

theorem releaseMany_armed (objs : List Nat) :
    ∀ s : PoolState, s.poolSizeUpdateScheduled = true →
      (releaseMany s objs).poolSizeUpdateScheduled = true ∧
      (releaseMany s objs).pendingTasks = s.pendingTasks := by
  induction objs with
  | nil => intro s h; exact ⟨h, rfl⟩
  | cons o rest ih =>
    intro s h
    simp only [releaseMany]
    obtain ⟨h1, h2⟩ := release_flag s o
    rw [if_pos h] at h2
    obtain ⟨h3, h4⟩ := ih (release s o) h1
    exact ⟨h3, by rw [h4, h2]⟩

theorem runAr_numActiveGC (ops : List ArOp) :
    ∀ s : PoolState, (runAr s ops).numActiveGC = s.numActiveGC := by
  induction ops with
  | nil => intro s; rfl
  | cons op rest ih =>
    intro s
    cases op with
    | acq =>
      show (runAr (acquire s).1 rest).numActiveGC = s.numActiveGC
      rw [ih, (acquire_counters s).2]
    | rel obj =>
      show (runAr (release s obj) rest).numActiveGC = s.numActiveGC
      rw [ih, (release_counters s obj).2]

theorem finalize_counter_facts (s : PoolState) (w : Nat) :
    s.numGC ≤ (finalizeStep s w).numGC ∧ s.numActiveGC ≤ (finalizeStep s w).numActiveGC ∧
    (s.numGC = MAX_SAFE_INTEGER → (finalizeStep s w).numGC = MAX_SAFE_INTEGER) ∧
    (s.numActiveGC = MAX_SAFE_INTEGER →
      (finalizeStep s w).numActiveGC = MAX_SAFE_INTEGER) := by
  simp only [finalizeStep, finalizeCallback]
  split_ifs <;> simp_all

theorem release_tiers (s : PoolState) (obj : Nat) :
    (release s obj).strongPool = (if s.strongPool.length < s.maxStrongPoolSize
      then obj :: s.strongPool else s.strongPool) ∧
    (release s obj).weakPool = (if s.strongPool.length < s.maxStrongPoolSize
      then s.weakPool else addSet obj s.weakPool) := by
  simp only [release]
  split <;> split <;> split <;> simp_all

/-- C1, amended: acquire invokes the factory exactly when the strong tier is
empty at call time.  It never invokes the factory while numStrongPooledRefs is
positive (the call then returns the popped strong-tier object without
allocating), but when the strong tier is empty it does invoke the factory even
if a handle in the weak tier still resolves to a live object. -/
theorem wp_c1_factory_iff_strong_empty (s : PoolState) :
    (s.strongPool ≠ [] →
      (acquire s).1.nextId = s.nextId ∧ (acquire s).2 ∈ s.strongPool) ∧
    (s.strongPool = [] →
      (acquire s).1.nextId = s.nextId + 1 ∧ (acquire s).2 = s.nextId) := by
  constructor
  · intro hne
    cases hs : s.strongPool with
    | nil => exact absurd hs hne
    | cons obj rest =>
      cases hb : backfill s.dead s.weakPool with
      | mk promoted weakRest =>
        cases promoted <;> simp [acquire, hs, hb]
  · intro hs
    simp [acquire, hs]

theorem wp_c1_witness :
    (acquire (initState constZeroAlgo)).1.nextId = (initState constZeroAlgo).nextId + 1 ∧
    (acquire (initState constZeroAlgo)).2 = (initState constZeroAlgo).nextId :=
  (wp_c1_factory_iff_strong_empty (initState constZeroAlgo)).2 rfl

/-- A pool built with the constant-zero scaling algorithm after acquiring one
object and releasing it: the strong tier is empty (capacity 0) while the weak
tier holds the live handle of the released object. -/
def c1State : PoolState :=
  release (acquire (initState constZeroAlgo)).1 (acquire (initState constZeroAlgo)).2

/-- C1, counterexample: in the reachable state c1State the strong tier is
empty, the weak tier holds the handle 0 whose target is live (not dead), and
yet acquire invokes the factory — the fresh-id counter advances and the object
returned is the newly created one, not the reusable weakly pooled one. -/
theorem wp_c1_counterexample :
    c1State.strongPool = [] ∧ c1State.weakPool = [0] ∧ c1State.dead = [] ∧
    (acquire c1State).1.nextId = c1State.nextId + 1 ∧
    (acquire c1State).2 = c1State.nextId ∧ (acquire c1State).2 ≠ 0 := by
  decide

/-- C2: across any acquire/release-only interaction sequence the private field
backing numActiveGC stays 0 (only the finalization callback touches it), so the
claimed statistic value is right; but the public getter numActiveGC as written
returns the getter itself rather than the private field, so the modelled
self-call produces no value at any recursion depth — in the source, reading
numActiveGC is an unconditional infinite recursion, not a readable snapshot. -/
theorem wp_c2_numActiveGC :
    (∀ (s : PoolState) (fuel : Nat), numActiveGCGetter s fuel = none) ∧
    (∀ (algo : ScalingAlgo) (ops : List ArOp),
      (runAr (initState algo) ops).numActiveGC = 0) := by
  constructor
  · intro s fuel
    induction fuel with
    | zero => rfl
    | succ n ih => exact ih
  · intro algo ops
    rw [runAr_numActiveGC]
    rfl

/-- C3: the default scaling algorithm returns DEFAULT = 5 when numActive = 0
(for all other arguments), satisfies the literal cases f(1,5,0,0,0) = 5,
f(100,9,0,0,0) = 20, f(100,51,0,0,0) = 20 and f(100,p,0,0,0) = p for every
10 ≤ p ≤ 50, and in general returns max(ceil(numActive * 0.2), 5) when
curMaxStrong / numActive lies strictly outside [0.1, 0.5] and
max(curMaxStrong, 5) otherwise. -/
theorem wp_c3_default_scaling :
    (∀ b c d e : ℚ, defaultPoolScalingAlgo 0 b c d e = 5) ∧
    defaultPoolScalingAlgo 1 5 0 0 0 = 5 ∧
    defaultPoolScalingAlgo 100 9 0 0 0 = 20 ∧
    defaultPoolScalingAlgo 100 51 0 0 0 = 20 ∧
    (∀ p : ℕ, 10 ≤ p → p ≤ 50 → defaultPoolScalingAlgo 100 (p : ℚ) 0 0 0 = (p : ℚ)) ∧
    (∀ n b c d e : ℚ, ¬ n = 0 → (b / n < 0.1 ∨ b / n > 0.5) →
      defaultPoolScalingAlgo n b c d e = max ((⌈n * 0.2⌉ : ℤ) : ℚ) 5) ∧
    (∀ n b c d e : ℚ, ¬ n = 0 → ¬ (b / n < 0.1 ∨ b / n > 0.5) →
      defaultPoolScalingAlgo n b c d e = max b 5) := by
  refine ⟨?_, ?_, ?_, ?_, ?_, ?_, ?_⟩
  · intro b c d e
    norm_num [defaultPoolScalingAlgo, DEFAULT_MAX_STRONG_POOL_SIZE]
  · have hc : (⌈POOL_SCALING_FACTOR⌉ : ℤ) = 1 := by
      rw [POOL_SCALING_FACTOR, Int.ceil_eq_iff] ; norm_num
    norm_num [defaultPoolScalingAlgo, DEFAULT_MAX_STRONG_POOL_SIZE,
      minPoolToActiveRatio, maxPoolToActiveRatio, hc]
  · have hc : (⌈(100 : ℚ) * POOL_SCALING_FACTOR⌉ : ℤ) = 20 := by
      rw [POOL_SCALING_FACTOR, Int.ceil_eq_iff] ; norm_num
    norm_num [defaultPoolScalingAlgo, DEFAULT_MAX_STRONG_POOL_SIZE,
      minPoolToActiveRatio, maxPoolToActiveRatio, hc]
  · have hc : (⌈(100 : ℚ) * POOL_SCALING_FACTOR⌉ : ℤ) = 20 := by
      rw [POOL_SCALING_FACTOR, Int.ceil_eq_iff] ; norm_num
    norm_num [defaultPoolScalingAlgo, DEFAULT_MAX_STRONG_POOL_SIZE,
      minPoolToActiveRatio, maxPoolToActiveRatio, hc]
  · intro p h10 h50
    have hp10 : (10 : ℚ) ≤ (p : ℚ) := by exact_mod_cast h10
    have hp50 : (p : ℚ) ≤ 50 := by exact_mod_cast h50
    have hcond : ¬ ((p : ℚ) / 100 < minPoolToActiveRatio ∨
        (p : ℚ) / 100 > maxPoolToActiveRatio) := by
      rw [minPoolToActiveRatio, maxPoolToActiveRatio]
      push_neg
      constructor
      · rw [le_div_iff₀ (by norm_num : (0 : ℚ) < 100)]
        nlinarith
      · rw [div_le_iff₀ (by norm_num : (0 : ℚ) < 100)]
        nlinarith
    rw [defaultPoolScalingAlgo, if_neg (by norm_num), if_neg hcond,
      DEFAULT_MAX_STRONG_POOL_SIZE]
    exact max_eq_left (by linarith)
  · intro n b c d e hn hcond
    rw [defaultPoolScalingAlgo, if_neg hn, if_pos]
    · rw [POOL_SCALING_FACTOR, DEFAULT_MAX_STRONG_POOL_SIZE]
    · rw [minPoolToActiveRatio, maxPoolToActiveRatio]
      exact hcond
  · intro n b c d e hn hcond
    rw [defaultPoolScalingAlgo, if_neg hn, if_neg, DEFAULT_MAX_STRONG_POOL_SIZE]
    rw [minPoolToActiveRatio, maxPoolToActiveRatio]
    exact hcond

theorem wp_c3_witness :
    defaultPoolScalingAlgo 100 ((30 : ℕ) : ℚ) 0 0 0 = ((30 : ℕ) : ℚ) :=
  wp_c3_default_scaling.2.2.2.2.1 30 (by norm_num) (by norm_num)

/-- C4: a factory throw inside acquire propagates and leaves the pool state
exactly as it was before the call (popping the empty strong tier mutates
nothing and no registration has happened yet); a reset throw inside release
propagates and leaves the pool state exactly as it was at the instant the
callback was invoked — after the active-set delete (and, on a foreign release,
the handle registration) and with both tiers, all counters, the capacity and
the debounce state untouched relative to the state at the call. -/
theorem wp_c4_callback_throw (s : PoolState) (obj : Nat) :
    (s.strongPool = [] → acquireE true s = Except.error s) ∧
    releaseE true s obj = Except.error (preReset s obj) ∧
    (preReset s obj).strongPool = s.strongPool ∧
    (preReset s obj).weakPool = s.weakPool ∧
    (preReset s obj).numGC = s.numGC ∧
    (preReset s obj).numActiveGC = s.numActiveGC ∧
    (preReset s obj).maxStrongPoolSize = s.maxStrongPoolSize ∧
    (preReset s obj).poolSizeUpdateScheduled = s.poolSizeUpdateScheduled ∧
    (preReset s obj).pendingTasks = s.pendingTasks ∧
    (preReset s obj).dead = s.dead ∧ (preReset s obj).nextId = s.nextId := by
  refine ⟨?_, rfl, ?_, ?_, ?_, ?_, ?_, ?_, ?_, ?_, ?_⟩
  · intro hs
    simp [acquireE, hs]
  all_goals (unfold preReset; split <;> rfl)

theorem wp_c4_witness :
    acquireE true (initState constZeroAlgo) = Except.error (initState constZeroAlgo) :=
  (wp_c4_callback_throw (initState constZeroAlgo) 0).1 rfl

/-- C5: in every reachable pool state at rest — reachable by acquires, by
releases obeying the caller discipline (only objects previously acquired, not
yet released, and still live are released), by rescale runs, by reclamations
and by finalizations — the membership queries isActive, isStrongPooled and
isWeakPooled are pairwise mutually exclusive for every object. -/
theorem wp_c5_tier_exclusive {algo : ScalingAlgo} {s : PoolState}
    (h : Reachable algo s) (obj : Nat) :
    ¬(isActive s obj = true ∧ isStrongPooled s obj = true) ∧
    ¬(isActive s obj = true ∧ isWeakPooled s obj = true) ∧
    ¬(isStrongPooled s obj = true ∧ isWeakPooled s obj = true) := by
  have hinv := reachable_inv h
  simp only [isActive, isStrongPooled, isWeakPooled, decide_eq_true_eq]
  exact ⟨fun hc => hinv.disjSA obj hc.2 hc.1, fun hc => hinv.disjWA obj hc.2 hc.1,
    fun hc => hinv.disjSW obj hc.1 hc.2⟩

theorem wp_c5_witness :
    ¬(isActive (release (acquire (initState constZeroAlgo)).1 0) 0 = true ∧
        isStrongPooled (release (acquire (initState constZeroAlgo)).1 0) 0 = true) ∧
    ¬(isActive (release (acquire (initState constZeroAlgo)).1 0) 0 = true ∧
        isWeakPooled (release (acquire (initState constZeroAlgo)).1 0) 0 = true) ∧
    ¬(isStrongPooled (release (acquire (initState constZeroAlgo)).1 0) 0 = true ∧
        isWeakPooled (release (acquire (initState constZeroAlgo)).1 0) 0 = true) :=
  wp_c5_tier_exclusive
    (Reachable.step (Reachable.step Reachable.init (Step.acq (initState constZeroAlgo)))
      (Step.rel (acquire (initState constZeroAlgo)).1 0 (by decide) (by decide))) 0

/-- C6: in every reachable state the setTimeout queue holds exactly one rescale
task when the debounce flag is set and none otherwise (so at most one rescale
is pending); from any state with the flag clear, one or more consecutive
releases enqueue exactly one task and leave the flag set; and running the
scheduled task consumes it from the queue and clears the flag, so it runs
exactly once per arming. -/
theorem wp_c6_debounce (algo : ScalingAlgo) :
    (∀ s : PoolState, Reachable algo s →
      s.pendingTasks = (bif s.poolSizeUpdateScheduled then 1 else 0)) ∧
    (∀ (s : PoolState) (obj : Nat) (objs : List Nat), s.poolSizeUpdateScheduled = false →
      (releaseMany s (obj :: objs)).pendingTasks = s.pendingTasks + 1 ∧
      (releaseMany s (obj :: objs)).poolSizeUpdateScheduled = true) ∧
    (∀ s : PoolState, (updatePoolSize algo s).poolSizeUpdateScheduled = false ∧
      (updatePoolSize algo s).pendingTasks = s.pendingTasks - 1) := by
  refine ⟨fun s h => reachable_pending h, ?_, fun s => update_flag_pending algo s⟩
  intro s obj objs hf
  simp only [releaseMany]
  obtain ⟨h1, h2⟩ := release_flag s obj
  have hne : ¬ s.poolSizeUpdateScheduled = true := by
    rw [hf]; exact Bool.false_ne_true
  rw [if_neg hne] at h2
  obtain ⟨h3, h4⟩ := releaseMany_armed objs (release s obj) h1
  exact ⟨by rw [h4, h2], h3⟩

theorem wp_c6_witness :
    (releaseMany (initState constZeroAlgo) (0 :: [1])).pendingTasks =
      (initState constZeroAlgo).pendingTasks + 1 ∧
    (releaseMany (initState constZeroAlgo) (0 :: [1])).poolSizeUpdateScheduled = true :=
  (wp_c6_debounce constZeroAlgo).2.1 (initState constZeroAlgo) 0 [1] rfl

/-- C7: when the rescale task runs from any state, afterwards the capacity
equals the scaling algorithm's result on the pre-rescale statistics
(rescaleTarget), numGC is 0, the debounce flag is cleared, and the strong tier
length is bounded by the new capacity.  If the new capacity is below the old
strong length, the strong tier is popped down to exactly the new capacity and
every old strong object is still strongly pooled or had its handle inserted
into the weak tier (which only grew).  If the new capacity is above the old
strong length and the weak tier was non-empty, every object in the new strong
tier is an old strong object or a live promoted weak handle, the remaining
weak tier only shrank, and every old weak handle is still weakly pooled, was
promoted to the strong tier, or was dead and is discarded permanently. -/
theorem wp_c7_rescale (algo : ScalingAlgo) (s : PoolState) :
    (updatePoolSize algo s).maxStrongPoolSize = rescaleTarget algo s ∧
    (updatePoolSize algo s).numGC = 0 ∧
    (updatePoolSize algo s).poolSizeUpdateScheduled = false ∧
    (updatePoolSize algo s).strongPool.length ≤ rescaleTarget algo s ∧
    (rescaleTarget algo s < s.strongPool.length →
      (updatePoolSize algo s).strongPool.length = rescaleTarget algo s ∧
      (∀ y : Nat, y ∈ s.strongPool →
        y ∈ (updatePoolSize algo s).strongPool ∨ y ∈ (updatePoolSize algo s).weakPool) ∧
      (∀ y : Nat, y ∈ s.weakPool → y ∈ (updatePoolSize algo s).weakPool)) ∧
    (s.strongPool.length < rescaleTarget algo s → s.weakPool ≠ [] →
      (∀ y : Nat, y ∈ (updatePoolSize algo s).strongPool →
        y ∈ s.strongPool ∨ (y ∈ s.weakPool ∧ y ∉ s.dead)) ∧
      (∀ y : Nat, y ∈ (updatePoolSize algo s).weakPool → y ∈ s.weakPool) ∧
      (∀ y : Nat, y ∈ s.weakPool →
        y ∈ (updatePoolSize algo s).weakPool ∨ y ∈ (updatePoolSize algo s).strongPool ∨
          y ∈ s.dead)) := by
  refine ⟨rfl, rfl, rfl, ?_, ?_, ?_⟩
  · by_cases h1 : rescaleTarget algo s < s.strongPool.length
    · have e : (updatePoolSize algo s).strongPool =
          (shrink (rescaleTarget algo s) s.strongPool s.weakPool).1 := by
        simp only [updatePoolSize, if_pos h1]
      rw [e, shrink_fst_length]
      omega
    · by_cases h2 : rescaleTarget algo s > s.strongPool.length ∧ 0 < s.weakPool.length
      · have e : (updatePoolSize algo s).strongPool =
            (promote (rescaleTarget algo s) s.dead s.strongPool s.weakPool).1 := by
          simp only [updatePoolSize, if_neg h1, if_pos h2]
        rw [e]
        exact promote_fst_length _ _ _ _ h2.1
      · have e : (updatePoolSize algo s).strongPool = s.strongPool := by
          simp only [updatePoolSize, if_neg h1, if_neg h2]
        rw [e]
        omega
  · intro h1
    have e1 : (updatePoolSize algo s).strongPool =
        (shrink (rescaleTarget algo s) s.strongPool s.weakPool).1 := by
      simp only [updatePoolSize, if_pos h1]
    have e2 : (updatePoolSize algo s).weakPool =
        (shrink (rescaleTarget algo s) s.strongPool s.weakPool).2 := by
      simp only [updatePoolSize, if_pos h1]
    refine ⟨?_, ?_, ?_⟩
    · rw [e1, shrink_fst_length]
      omega
    · intro y hy
      rw [e1, e2]
      exact shrink_cover _ _ _ _ hy
    · intro y hy
      rw [e2]
      exact shrink_snd_supset _ _ _ _ hy
  · intro h1 hw
    have hnl : ¬ rescaleTarget algo s < s.strongPool.length := by omega
    have hc2 : rescaleTarget algo s > s.strongPool.length ∧ 0 < s.weakPool.length :=
      ⟨h1, List.length_pos.mpr hw⟩
    have e1 : (updatePoolSize algo s).strongPool =
        (promote (rescaleTarget algo s) s.dead s.strongPool s.weakPool).1 := by
      simp only [updatePoolSize, if_neg hnl, if_pos hc2]
    have e2 : (updatePoolSize algo s).weakPool =
        (promote (rescaleTarget algo s) s.dead s.strongPool s.weakPool).2 := by
      simp only [updatePoolSize, if_neg hnl, if_pos hc2]
    refine ⟨?_, ?_, ?_⟩
    · intro y hy
      rw [e1] at hy
      exact promote_fst_mem _ _ _ _ _ hy
    · intro y hy
      rw [e2] at hy
      exact (promote_snd_sublist _ _ _ _).subset hy
    · intro y hy
      rw [e1, e2]
      exact promote_weak_cases _ _ _ _ _ hy

theorem wp_c7_witness :
    (updatePoolSize constZeroAlgo { initState constZeroAlgo with strongPool := [5, 7] }).strongPool.length = 0 ∧
    (5 ∈ (updatePoolSize constZeroAlgo { initState constZeroAlgo with strongPool := [5, 7] }).strongPool ∨
      5 ∈ (updatePoolSize constZeroAlgo { initState constZeroAlgo with strongPool := [5, 7] }).weakPool) :=
  ⟨((wp_c7_rescale constZeroAlgo { initState constZeroAlgo with strongPool := [5, 7] }).2.2.2.2.1
      (by decide)).1,
    ((wp_c7_rescale constZeroAlgo { initState constZeroAlgo with strongPool := [5, 7] }).2.2.2.2.1
      (by decide)).2.1 5 (by decide)⟩

/-- C8: if at the moment release(obj) is called the strong tier length is
below the capacity, release pushes the object onto the strong tier — the
length grows by exactly one and the weak tier is untouched; otherwise the
object's handle is inserted into the weak tier and the strong tier is
unchanged. -/
theorem wp_c8_release (s : PoolState) (obj : Nat) :
    (s.strongPool.length < s.maxStrongPoolSize →
      (release s obj).strongPool.length = s.strongPool.length + 1 ∧
      (release s obj).weakPool = s.weakPool) ∧
    (¬ s.strongPool.length < s.maxStrongPoolSize →
      (release s obj).weakPool = addSet obj s.weakPool ∧
      (release s obj).strongPool = s.strongPool) := by
  obtain ⟨e1, e2⟩ := release_tiers s obj
  constructor
  · intro hlen
    rw [e1, e2, if_pos hlen, if_pos hlen]
    exact ⟨List.length_cons _ _, rfl⟩
  · intro hlen
    rw [e1, e2, if_neg hlen, if_neg hlen]
    exact ⟨rfl, rfl⟩

theorem wp_c8_witness :
    (release (initState constZeroAlgo) 3).weakPool =
      addSet 3 (initState constZeroAlgo).weakPool ∧
    (release (initState constZeroAlgo) 3).strongPool =
      (initState constZeroAlgo).strongPool :=
  (wp_c8_release (initState constZeroAlgo) 3).2 (by decide)

/-- C9: numGC and numActiveGC never decrease along any operation except that
each rescale run resets numGC to 0 (acquire and release leave both counters
unchanged, the rescale leaves numActiveGC unchanged, and a finalization event
only increments); and when either counter sits at Number.MAX_SAFE_INTEGER a
further finalization event leaves it there — it saturates instead of
wrapping. -/
theorem wp_c9_counters :
    (∀ s : PoolState, (acquire s).1.numGC = s.numGC ∧
      (acquire s).1.numActiveGC = s.numActiveGC) ∧
    (∀ (s : PoolState) (obj : Nat), (release s obj).numGC = s.numGC ∧
      (release s obj).numActiveGC = s.numActiveGC) ∧
    (∀ (algo : ScalingAlgo) (s : PoolState), (updatePoolSize algo s).numGC = 0 ∧
      (updatePoolSize algo s).numActiveGC = s.numActiveGC) ∧
    (∀ (s : PoolState) (w : Nat), s.numGC ≤ (finalizeStep s w).numGC ∧
      s.numActiveGC ≤ (finalizeStep s w).numActiveGC) ∧
    (∀ (s : PoolState) (w : Nat), s.numGC = MAX_SAFE_INTEGER →
      (finalizeStep s w).numGC = MAX_SAFE_INTEGER) ∧
    (∀ (s : PoolState) (w : Nat), s.numActiveGC = MAX_SAFE_INTEGER →
      (finalizeStep s w).numActiveGC = MAX_SAFE_INTEGER) :=
  ⟨fun s => acquire_counters s,
   fun s obj => release_counters s obj,
   fun _ _ => ⟨rfl, rfl⟩,
   fun s w => ⟨(finalize_counter_facts s w).1, (finalize_counter_facts s w).2.1⟩,
   fun s w => (finalize_counter_facts s w).2.2.1,
   fun s w => (finalize_counter_facts s w).2.2.2⟩

theorem wp_c9_witness :
    (finalizeStep { initState constZeroAlgo with numGC := MAX_SAFE_INTEGER } 0).numGC =
      MAX_SAFE_INTEGER :=
  wp_c9_counters.2.2.2.2.1 { initState constZeroAlgo with numGC := MAX_SAFE_INTEGER } 0 rfl

/-- C10: the introspection queries isActive, isStrongPooled and isWeakPooled
and the statistics getters numActiveObjects, curMaxStrongPoolSize,
numStrongPooledRefs, numWeakPooledRefs and numGC are pure reads: run as state
transformers they return the entire pool state — both tiers, the active set,
all counters, the capacity and the debounce state — unchanged. -/
theorem wp_c10_getters_pure (s : PoolState) (obj : Nat) :
    (numActiveObjectsOp s).2 = s ∧ (curMaxStrongPoolSizeOp s).2 = s ∧
    (numStrongPooledRefsOp s).2 = s ∧ (numWeakPooledRefsOp s).2 = s ∧
    (numGCOp s).2 = s ∧ (isActiveOp s obj).2 = s ∧
    (isStrongPooledOp s obj).2 = s ∧ (isWeakPooledOp s obj).2 = s :=
  ⟨rfl, rfl, rfl, rfl, rfl, rfl, rfl, rfl⟩
